import Mathlib

/-!
Verification development for the `proof` incremental-analysis library
(`proof/analysis.py`, `proof/utils.py`).

The Python code is shallowly embedded: the filesystem cache becomes an
association list from paths to blobs, the mutable `data` dictionaries
become a heap of dictionary values addressed by allocation order, and
`Analysis.run` becomes a recursive function threading an explicit world
state through an `Except` monad (a Python exception is an `.error`
result carrying the world at the moment of the raise).
-/

namespace Proof

/-! ### MD5 (as used by `Analysis._fingerprint` via `hashlib.md5`)

A full executable MD5 over byte lists, bytes being `Nat` values below 256
and 32-bit words being `Nat` values reduced modulo `2 ^ 32`. -/

/-- The 64 MD5 round constants `K[i] = floor(2^32 * abs(sin(i+1)))`. -/
def md5K : List Nat :=
  [0xd76aa478, 0xe8c7b756, 0x242070db, 0xc1bdceee,
   0xf57c0faf, 0x4787c62a, 0xa8304613, 0xfd469501,
   0x698098d8, 0x8b44f7af, 0xffff5bb1, 0x895cd7be,
   0x6b901122, 0xfd987193, 0xa679438e, 0x49b40821,
   0xf61e2562, 0xc040b340, 0x265e5a51, 0xe9b6c7aa,
   0xd62f105d, 0x02441453, 0xd8a1e681, 0xe7d3fbc8,
   0x21e1cde6, 0xc33707d6, 0xf4d50d87, 0x455a14ed,
   0xa9e3e905, 0xfcefa3f8, 0x676f02d9, 0x8d2a4c8a,
   0xfffa3942, 0x8771f681, 0x6d9d6122, 0xfde5380c,
   0xa4beea44, 0x4bdecfa9, 0xf6bb4b60, 0xbebfbc70,
   0x289b7ec6, 0xeaa127fa, 0xd4ef3085, 0x04881d05,
   0xd9d4d039, 0xe6db99e5, 0x1fa27cf8, 0xc4ac5665,
   0xf4292244, 0x432aff97, 0xab9423a7, 0xfc93a039,
   0x655b59c3, 0x8f0ccc92, 0xffeff47d, 0x85845dd1,
   0x6fa87e4f, 0xfe2ce6e0, 0xa3014314, 0x4e0811a1,
   0xf7537e82, 0xbd3af235, 0x2ad7d2bb, 0xeb86d391]

/-- The 64 MD5 per-round left-rotation amounts. -/
def md5S : List Nat :=
  [7, 12, 17, 22, 7, 12, 17, 22, 7, 12, 17, 22, 7, 12, 17, 22,
   5, 9, 14, 20, 5, 9, 14, 20, 5, 9, 14, 20, 5, 9, 14, 20,
   4, 11, 16, 23, 4, 11, 16, 23, 4, 11, 16, 23, 4, 11, 16, 23,
   6, 10, 15, 21, 6, 10, 15, 21, 6, 10, 15, 21, 6, 10, 15, 21]

/-- Left-rotation of a 32-bit word. -/
def rotl32 (x s : Nat) : Nat :=
  (((x % 4294967296) <<< s) ||| ((x % 4294967296) >>> (32 - s))) % 4294967296

/-- The MD5 nonlinear mixing function for round `i`. -/
def md5F (i b c d : Nat) : Nat :=
  if i < 16 then (b &&& c) ||| ((b ^^^ 0xffffffff) &&& d)
  else if i < 32 then (d &&& b) ||| ((d ^^^ 0xffffffff) &&& c)
  else if i < 48 then b ^^^ c ^^^ d
  else c ^^^ (b ||| (d ^^^ 0xffffffff))

/-- The MD5 message-word index for round `i`. -/
def md5G (i : Nat) : Nat :=
  if i < 16 then i
  else if i < 32 then (5 * i + 1) % 16
  else if i < 48 then (3 * i + 5) % 16
  else (7 * i) % 16

/-- Running MD5 state: four 32-bit words. -/
structure MD5St where
  a : Nat
  b : Nat
  c : Nat
  d : Nat
deriving Repr, DecidableEq

/-- One MD5 round over message block `M` (16 words). -/
def md5Round (M : List Nat) (st : MD5St) (i : Nat) : MD5St :=
  let f := (md5F i st.b st.c st.d + st.a + md5K.getD i 0 + M.getD (md5G i) 0) % 4294967296
  ⟨st.d, (st.b + rotl32 f (md5S.getD i 0)) % 4294967296, st.b, st.c⟩

/-- Process one 16-word block, adding the round result into the state. -/
def md5Block (st : MD5St) (M : List Nat) : MD5St :=
  let r := (List.range 64).foldl (md5Round M) st
  ⟨(st.a + r.a) % 4294967296, (st.b + r.b) % 4294967296,
   (st.c + r.c) % 4294967296, (st.d + r.d) % 4294967296⟩

/-- Little-endian byte decomposition of `x` into `n` bytes. -/
def leBytes : Nat → Nat → List Nat
  | 0, _ => []
  | n + 1, x => (x % 256) :: leBytes n (x / 256)

/-- MD5 padding: append `0x80`, zero-pad to 56 mod 64, append the 64-bit
little-endian bit length. -/
def md5pad (msg : List Nat) : List Nat :=
  msg ++ [0x80] ++ List.replicate ((56 - (msg.length + 1) % 64 + 64) % 64) 0
      ++ leBytes 8 (msg.length * 8 % 18446744073709551616)

/-- Group a byte list into 32-bit little-endian words. -/
def leWords : List Nat → List Nat
  | b0 :: b1 :: b2 :: b3 :: rest =>
      (b0 + 256 * b1 + 65536 * b2 + 16777216 * b3) :: leWords rest
  | _ => []

/-- Split a word list into chunks of 16, with explicit fuel. -/
def chunk16 : Nat → List Nat → List (List Nat)
  | 0, _ => []
  | _, [] => []
  | n + 1, ws => ws.take 16 :: chunk16 n (ws.drop 16)

/-- The MD5 digest of a byte list, as the 16 digest bytes. -/
def md5Bytes (msg : List Nat) : List Nat :=
  let ws := leWords (md5pad msg)
  let st := (chunk16 ws.length ws).foldl md5Block
    ⟨0x67452301, 0xefcdab89, 0x98badcfe, 0x10325476⟩
  leBytes 4 st.a ++ leBytes 4 st.b ++ leBytes 4 st.c ++ leBytes 4 st.d

/-- A hexadecimal digit character. -/
def hexDigit (n : Nat) : Char :=
  if n < 10 then Char.ofNat (48 + n) else Char.ofNat (87 + n % 16)

/-- Two-character lowercase hex rendering of one byte. -/
def byteHex (b : Nat) : String :=
  String.mk [hexDigit (b / 16 % 16), hexDigit (b % 16)]

/-- UTF-8 encoding of one character, as bytes. -/
def charUtf8 (c : Char) : List Nat :=
  let n := c.toNat
  if n < 128 then [n]
  else if n < 2048 then [192 + n / 64, 128 + n % 64]
  else if n < 65536 then [224 + n / 4096, 128 + n / 64 % 64, 128 + n % 64]
  else [240 + n / 262144, 128 + n / 4096 % 64, 128 + n / 64 % 64, 128 + n % 64]

/-- UTF-8 encoding of a string (Python `s.encode('utf-8')`). -/
def utf8Bytes (s : String) : List Nat :=
  (s.data.map charUtf8).flatten

/-- `hashlib.md5(s.encode('utf-8')).hexdigest()`: lowercase hex digest. -/
def md5hex (s : String) : String :=
  String.join ((md5Bytes (utf8Bytes s)).map byteHex)

/-! ### Fingerprint and cache path

`Analysis._fingerprint` feeds the hasher twice: first the newline-join of
the names along `_trace()` (root down to this node), then the node's
source text; two `update` calls hash the concatenation.
`Analysis._cache_path` is `os.path.join(cache_dir, fingerprint + ".cache")`,
modelled with a single `/` separator (`cache_dir` without trailing slash). -/

/-- Python `'\n'.join(names)`. -/
def joinNames : List String → String
  | [] => ""
  | [n] => n
  | n :: ns => n ++ "\n" ++ joinNames ns

/-- `Analysis._fingerprint`: md5 of the joined trace names followed by the
node's source text. -/
def fingerprint (names : List String) (source : String) : String :=
  md5hex (joinNames names ++ source)

/-- `Analysis._cache_path`: `os.path.join(cache_dir, '%s.cache' % fingerprint)`. -/
def cachePath (cacheDir : String) (names : List String) (source : String) : String :=
  cacheDir ++ "/" ++ fingerprint names source ++ ".cache"

/-! ### State dictionaries, heap, and blob store

The Python `data` argument is a mutable dictionary handed from parent to
child.  Object identity matters (children deep-copy it before mutating),
so dictionaries live in a heap indexed by allocation order and are passed
by address.  `copy.deepcopy` allocates a fresh address holding the same
value; since dictionary values here are immutable Lean values, copying
the value is exactly a deep copy.

A cache file's bytes either decompress+unpickle to a dictionary
(`Blob.valid`) or fail to (`Blob.corrupt`).  The cache directory is an
association list from paths to blobs; writing replaces any previous
entry at the path. -/

/-- A state dictionary (string keys, integer values suffice for the claims). -/
abbrev Dict := List (String × Int)

/-- A heap address. -/
abbrev Addr := Nat

/-- The heap of live dictionaries, indexed by allocation order. -/
abbrev Heap := List Dict

/-- `copy.deepcopy(data)`: allocate a fresh dictionary equal to the one at `a`. -/
def deepcopyH (h : Heap) (a : Addr) : Heap × Addr :=
  (h ++ [h.getD a []], h.length)

/-- The bytes stored at a cache path: either a readable serialized
dictionary or bytes that fail to decompress/unpickle. -/
inductive Blob where
  | valid (d : Dict)
  | corrupt
deriving Repr, DecidableEq

/-- The on-disk cache directory: path ↦ blob. -/
abbrev Store := List (String × Blob)

/-- Read the blob at a path, if the file exists. -/
def storeGet (s : Store) (p : String) : Option Blob :=
  (s.find? (fun e => e.1 == p)).map (fun e => e.2)

/-- Write a blob at a path, replacing any existing file there. -/
def storePut (s : Store) (p : String) (b : Blob) : Store :=
  (p, b) :: s.filter (fun e => e.1 != p)

/-- Does the glob pattern `cache_dir/*.cache` match this path?  The path
must be directly inside `cache_dir`, end in `.cache`, and (per glob) not
be a dotfile.  Stated over the character lists so it evaluates. -/
def isCacheFile (cacheDir p : String) : Bool :=
  (cacheDir ++ "/").data.isPrefixOf p.data &&
    (let base := p.data.drop (cacheDir ++ "/").data.length
     !(base.head? == some '.') && !base.contains '/' && ".cache".data.isSuffixOf base)

/-- The world threaded through a run: the heap of live dictionaries, the
on-disk cache directory, the root object's `_registered_cache_paths`
list, and the lines printed so far. -/
structure World where
  heap : Heap
  store : Store
  registered : List String
  log : List String
deriving Repr, DecidableEq

/-- `Analysis._cleanup_cache_files`: delete every file matching
`cache_dir/*.cache` whose path is not in `_registered_cache_paths`. -/
def cleanupCacheFiles (cacheDir : String) (w : World) : World :=
  { w with store :=
      w.store.filter (fun e => !(isCacheFile cacheDir e.1 && !w.registered.contains e.1)) }

/-! ### Analysis trees and `Analysis.run`

An `Analysis` object holds the step function's declared name, its source
text (what `inspect.getsource` returns), and the function itself, which
mutates the dictionary in place and may raise.  `then` builds the tree
before any run, so a tree is embedded as an inductive value; `run` takes
the names of the proper ancestors (root first), which determine
`_trace()`-derived data, and `anc = []` exactly when `self._root() is
self`.

`Func.neverCache` is not consulted by `run` (the flag does not exist in
`analysis.py`); it only feeds the separate spec-modelled variant below.

A raised Python exception is an `.error (msg, w)` result carrying the
world at the raise, so aborted runs keep their observable effects. -/

/-- A step function: declared name, source text, the mutation it performs
(`.error` models a raised exception), and the never-cache marker used
only by the spec-modelled run variant. -/
structure Func where
  name : String
  source : String
  action : Dict → Except String Dict
  neverCache : Bool := false

/-- An analysis tree: a step function and its ordered children
(`_next_analyses`), as built by `then` before any run. -/
inductive ATree where
  | mk (f : Func) (children : List ATree)

/-- The step function at the root of a subtree. -/
def ATree.func : ATree → Func
  | .mk f _ => f

/-- The children of a subtree's root. -/
def ATree.children : ATree → List ATree
  | .mk _ cs => cs

/-- The outcome of running: the final world, or a propagating exception
paired with the world at the moment of the raise. -/
abbrev RunResult := Except (String × World) World

/-- Decidable equality of run outcomes, for evaluating concrete runs. -/
instance exceptDecEq {e a : Type} [DecidableEq e] [DecidableEq a] :
    DecidableEq (Except e a) := fun x y =>
  match x, y with
  | .error x1, .error y1 =>
      if h : x1 = y1 then isTrue (by rw [h])
      else isFalse (fun hh => h (Except.error.inj hh))
  | .ok x1, .ok y1 =>
      if h : x1 = y1 then isTrue (by rw [h])
      else isFalse (fun hh => h (Except.ok.inj hh))
  | .error _, .ok _ => isFalse (fun hh => Except.noConfusion hh)
  | .ok _, .error _ => isFalse (fun hh => Except.noConfusion hh)

/-- The EXECUTED path shared by lines 177-180 and 191-196 of `run`:
print, deep-copy the incoming dictionary, invoke the step function on the
copy (propagating a raise), and persist the resulting value at the cache
path.  Children then receive the copy's address with `refresh = true`. -/
def execNode (f : Func) (cp line : String) (w : World) (a : Addr) :
    Except (String × World) (World × Addr × Bool) :=
  let h1 := (deepcopyH w.heap a).1
  let a1 := (deepcopyH w.heap a).2
  let w1 := { w with heap := h1, log := w.log ++ [line] }
  match f.action (h1.getD a1 []) with
  | .error e => .error (e, w1)
  | .ok d =>
      .ok ({ w1 with heap := h1.set a1 d, store := storePut w1.store cp (.valid d) },
           a1, true)

/-- Lines 174-196 of `Analysis.run`: decide refresh / cache-hit /
cache-miss for one node and produce the dictionary address and refresh
flag handed to the children.  On a hit the stored bytes are loaded into a
fresh object (line 187); unreadable bytes raise out of `_load_cache`
uncaught.  (Line 172 assigns the per-object, write-only attribute
`_registered_fingerprints`, which no code reads; that dead store is not
modelled.  Line 182 binds `fingerprint` without using it.) -/
def runPhase (f : Func) (names : List String) (cacheDir : String) (w : World)
    (a : Addr) (refresh : Bool) : Except (String × World) (World × Addr × Bool) :=
  let cp := cachePath cacheDir names f.source
  if refresh then
    execNode f cp ("Refreshing: " ++ f.name) w a
  else
    match storeGet w.store cp with
    | some (.valid d) =>
        .ok ({ w with
                heap := w.heap ++ [d],
                log := w.log ++ ["Loaded from cache: " ++ f.name] },
             w.heap.length, false)
    | some .corrupt =>
        .error ("CacheCorrupt",
          { w with log := w.log ++ ["Loaded from cache: " ++ f.name] })
    | none =>
        execNode f cp ("Running: " ++ f.name) w a

mutual

/-- `Analysis.run`: run the node's phase, recurse into the children in
order with the resulting dictionary and refresh flag, register the
node's cache path with the root (line 201, after the children), and, at
the root only, clean up unregistered cache files (lines 203-204). -/
def run : ATree → List String → String → World → Addr → Bool → RunResult
  | .mk f cs, anc, cacheDir, w, a, refresh =>
    let names := anc ++ [f.name]
    match runPhase f names cacheDir w a refresh with
    | .error p => .error p
    | .ok (w1, a1, r1) =>
      match runChildren cs names cacheDir w1 a1 r1 with
      | .error p => .error p
      | .ok w2 =>
        let w3 := { w2 with
          registered := w2.registered ++ [cachePath cacheDir names f.source] }
        .ok (if anc.isEmpty then cleanupCacheFiles cacheDir w3 else w3)
termination_by structural t _ _ _ _ _ => t

/-- The `for analysis in self._next_analyses` loop of `run`: each child
receives the same dictionary address and refresh flag. -/
def runChildren : List ATree → List String → String → World → Addr → Bool → RunResult
  | [], _, _, w, _, _ => .ok w
  | t :: ts, names, cacheDir, w, a, refresh =>
    match run t names cacheDir w a refresh with
    | .error p => .error p
    | .ok w1 => runChildren ts names cacheDir w1 a refresh
termination_by structural ts _ _ _ _ _ => ts

end

mutual

/-- The fingerprints of all nodes of a subtree, preorder, given the
proper-ancestor names. -/
def fingerprints : ATree → List String → List String
  | .mk f cs, anc =>
      fingerprint (anc ++ [f.name]) f.source :: fingerprintsList cs (anc ++ [f.name])
termination_by structural t _ => t

/-- `fingerprints` over a list of sibling subtrees. -/
def fingerprintsList : List ATree → List String → List String
  | [], _ => []
  | t :: ts, names => fingerprints t names ++ fingerprintsList ts names
termination_by structural ts _ => ts

end

mutual

/-- The lines `run` prints over a subtree when every node takes the
refresh path. -/
def refreshLines : ATree → List String
  | .mk f cs => ("Refreshing: " ++ f.name) :: refreshLinesList cs
termination_by structural t => t

/-- `refreshLines` over a list of sibling subtrees. -/
def refreshLinesList : List ATree → List String
  | [] => []
  | t :: ts => refreshLines t ++ refreshLinesList ts
termination_by structural ts => ts

end

/-! ### Spec-modelled never-cache variant of `run`

Modelled from the spec: the never-cache marker on a step function and its
handling inside `run` are described in spec sections 3, 4.4 and 6 but are
absent from `analysis.py`; only the transition rule given there is
followed here.  Rule 1: if `force_refresh` is true, or the function is
flagged never-cache, or no valid blob exists at `cache_path`, take the
EXECUTED path — copy the state, invoke the step function, and persist the
result unless never-cache is flagged; children then see
`force_refresh = true`.  Rule 2: otherwise load the blob.  Rule 3: a
never-cache node, which never writes a path, registers nothing; other
nodes register `cache_path`.  Rules 4-5: recurse into children in order;
the root runs garbage collection after the whole tree.  The log lines
follow spec section 6. -/
/-- Modelled from the spec: the EXECUTED path of a never-cache node —
copy the state and invoke the step function, but persist nothing. -/
def execNodeNC (f : Func) (line : String) (w : World) (a : Addr) :
    Except (String × World) (World × Addr × Bool) :=
  let h1 := (deepcopyH w.heap a).1
  let a1 := (deepcopyH w.heap a).2
  let w1 := { w with heap := h1, log := w.log ++ [line] }
  match f.action (h1.getD a1 []) with
  | .error e => .error (e, w1)
  | .ok d => .ok ({ w1 with heap := h1.set a1 d }, a1, true)

/-- Modelled from the spec: the per-node transition rule of section 4.4
with never-cache (see the section comment above). -/
def runPhaseNC (f : Func) (names : List String) (cacheDir : String) (w : World)
    (a : Addr) (refresh : Bool) : Except (String × World) (World × Addr × Bool) :=
  let cp := cachePath cacheDir names f.source
  let doExec := fun (line : String) =>
    if f.neverCache then execNodeNC f line w a else execNode f cp line w a
  if refresh then
    doExec ("refreshing: " ++ f.name)
  else if f.neverCache then
    doExec ("never-cached: " ++ f.name)
  else
    match storeGet w.store cp with
    | some (.valid d) =>
        .ok ({ w with
                heap := w.heap ++ [d],
                log := w.log ++ ["deferring-to-cache: " ++ f.name] },
             w.heap.length, false)
    | _ =>
        doExec ("stale-cache: " ++ f.name)

mutual

/-- Modelled from the spec: `run` with never-cache support, per the
spec's section 4.4 state machine (see `runPhaseNC`). -/
def runNC : ATree → List String → String → World → Addr → Bool → RunResult
  | .mk f cs, anc, cacheDir, w, a, refresh =>
    let names := anc ++ [f.name]
    match runPhaseNC f names cacheDir w a refresh with
    | .error p => .error p
    | .ok (w1, a1, r1) =>
      match runChildrenNC cs names cacheDir w1 a1 r1 with
      | .error p => .error p
      | .ok w2 =>
        let w3 :=
          if f.neverCache then w2
          else { w2 with
                  registered := w2.registered ++ [cachePath cacheDir names f.source] }
        .ok (if anc.isEmpty then cleanupCacheFiles cacheDir w3 else w3)
termination_by structural t _ _ _ _ _ => t

/-- Modelled from the spec: the child loop of `runNC`. -/
def runChildrenNC : List ATree → List String → String → World → Addr → Bool → RunResult
  | [], _, _, w, _, _ => .ok w
  | t :: ts, names, cacheDir, w, a, refresh =>
    match runNC t names cacheDir w a refresh with
    | .error p => .error p
    | .ok w1 => runChildrenNC ts names cacheDir w1 a refresh
termination_by structural ts _ _ _ _ _ => ts

end

/-! ### `proof.utils.memoize`

The decorator closes over `memo = None` and returns a wrapper that
returns `memo` when it is not `None` and otherwise returns `func(self)`;
no statement in `utils.py` ever assigns `memo` after its initialization.
The wrapper is embedded as a function of the current `memo` cell and the
wrapped zero-argument method, returning the call's result and the cell's
value after the call. -/

/-- One call of the wrapper `memoize` builds: return the memo if set,
else call through; the memo cell is returned unchanged in either branch
because the wrapper body contains no assignment to it. -/
def memoizeWrapper {V : Type} (memo : Option V) (func : Unit → V) : V × Option V :=
  match memo with
  | some v => (v, some v)
  | none => (func (), none)

/-- `n` successive calls of the wrapper starting from the decorator's
initial `memo = None` cell: the final cell and the list of returned
values. -/
def callRepeatedly {V : Type} (func : Unit → V) : Nat → Option V × List V
  | 0 => (none, [])
  | n + 1 =>
      let prev := callRepeatedly func n
      let call := memoizeWrapper prev.1 func
      (call.2, prev.2 ++ [call.1])

/-! ### `Analysis._save_cache` as a filesystem event trace

For the atomicity claim the body of `_save_cache` is embedded one
filesystem operation at a time: `os.makedirs(cache_dir)` when the
directory is missing, then `bz2.BZ2File(path, 'w')`, which opens the
final path directly and truncates it, then the write of the compressed
pickle bytes.  Replaying a prefix of the trace gives the on-disk content
after an interruption at that point. -/

/-- One filesystem operation performed by `_save_cache`. -/
inductive FsEvent where
  | mkdirs (dir : String)
  | openTrunc (path : String)
  | writeBytes (path : String) (payload : List Nat)
deriving Repr, DecidableEq

/-- The operations `_save_cache` performs, in order: create the cache
directory when missing (lines 118-119), open the cache path for writing,
truncating any existing file (line 121), write the serialized bytes
(lines 122-123). -/
def saveCacheEvents (cacheDir cp : String) (dirExists : Bool) (payload : List Nat) :
    List FsEvent :=
  (if dirExists then [] else [.mkdirs cacheDir]) ++ [.openTrunc cp, .writeBytes cp payload]

/-- Effect of one filesystem operation on the content of the file at `p`
(`none`: no such file). -/
def applyEvent (content : Option (List Nat)) (p : String) : FsEvent → Option (List Nat)
  | .mkdirs _ => content
  | .openTrunc q => if q = p then some [] else content
  | .writeBytes q bs =>
      if q = p then
        match content with
        | some c => some (c ++ bs)
        | none => content
      else content

/-- Content of the file at `p` after replaying a trace from `init`. -/
def contentAfter (evs : List FsEvent) (p : String) (init : Option (List Nat)) :
    Option (List Nat) :=
  evs.foldl (fun c e => applyEvent c p e) init

/-! ### Basic lemmas about the heap and the store -/

theorem getD_append_self {α : Type} (l : List α) (x d : α) :
    (l ++ [x]).getD l.length d = x := by
  rw [List.getD_append_right l [x] d l.length le_rfl]
  simp [List.getD]

theorem set_append_self {α : Type} (l : List α) (x v : α) :
    (l ++ [x]).set l.length v = l ++ [v] := by
  induction l with
  | nil => rfl
  | cons y l ih => simp [ih]

theorem storeGet_put_self (s : Store) (p : String) (b : Blob) :
    storeGet (storePut s p b) p = some b := by
  simp [storeGet, storePut]

theorem find_filter_ne (s : Store) {p q : String} (h : q ≠ p) :
    (s.filter (fun e => e.1 != p)).find? (fun e => e.1 == q) =
      s.find? (fun e => e.1 == q) := by
  induction s with
  | nil => rfl
  | cons e s ih =>
    by_cases he : e.1 = p
    · have hfe : (e.1 != p) = false := by simp [he]
      have hq : (e.1 == q) = false := by
        simp only [beq_eq_false_iff_ne, ne_eq]
        exact fun hh => h (hh ▸ he)
      simp [List.filter_cons, hfe, List.find?, hq, ih]
    · have hfe : (e.1 != p) = true := by simp [he]
      simp only [List.filter_cons, hfe, if_true, List.find?]
      rw [ih]

theorem storeGet_put_of_ne (s : Store) {p q : String} (h : q ≠ p) (b : Blob) :
    storeGet (storePut s p b) q = storeGet s q := by
  have hpq : (p == q) = false := by
    simp only [beq_eq_false_iff_ne, ne_eq]
    exact fun hh => h hh.symm
  simp [storeGet, storePut, List.find?, hpq, find_filter_ne s h]

theorem storeGet_put_isSome (s : Store) (p q : String) (b : Blob)
    (h : (storeGet s q).isSome = true) :
    (storeGet (storePut s p b) q).isSome = true := by
  by_cases hq : q = p
  · subst hq; simp [storeGet_put_self]
  · rwa [storeGet_put_of_ne s hq]

/-! ### Canonical forms of the per-node phases -/

/-- `execNode` in closed form: the deep copy lands at the end of the
heap, the step function runs on the copied value, and on success the
result is both written back in place and persisted. -/
theorem execNode_eq (f : Func) (cp line : String) (w : World) (a : Addr) :
    execNode f cp line w a =
      match f.action (w.heap.getD a []) with
      | .error e =>
          .error (e, { w with
                        heap := w.heap ++ [w.heap.getD a []],
                        log := w.log ++ [line] })
      | .ok d =>
          .ok ({ w with
                  heap := w.heap ++ [d],
                  store := storePut w.store cp (.valid d),
                  log := w.log ++ [line] },
               w.heap.length, true) := by
  unfold execNode deepcopyH
  simp only [getD_append_self]
  cases f.action (w.heap.getD a []) with
  | error e => rfl
  | ok d => simp [set_append_self]

/-- `execNodeNC` in closed form. -/
theorem execNodeNC_eq (f : Func) (line : String) (w : World) (a : Addr) :
    execNodeNC f line w a =
      match f.action (w.heap.getD a []) with
      | .error e =>
          .error (e, { w with
                        heap := w.heap ++ [w.heap.getD a []],
                        log := w.log ++ [line] })
      | .ok d =>
          .ok ({ w with heap := w.heap ++ [d], log := w.log ++ [line] },
               w.heap.length, true) := by
  unfold execNodeNC deepcopyH
  simp only [getD_append_self]
  cases f.action (w.heap.getD a []) with
  | error e => rfl
  | ok d => simp [set_append_self]

/-! ### Frame properties of a run

`heapExt w w'` says a computation only allocated: every dictionary
already live in `w` has the same value in `w'`.  `storeKeeps w w'` says
no cache file present in `w` has been deleted in `w'` (overwriting is
allowed). -/

/-- The heap only grew and existing dictionaries kept their values. -/
def heapExt (w w' : World) : Prop :=
  w.heap.length ≤ w'.heap.length ∧
    ∀ i, i < w.heap.length → w'.heap.getD i [] = w.heap.getD i []

/-- Every cache file present before is still present (possibly rewritten). -/
def storeKeeps (w w' : World) : Prop :=
  ∀ p, (storeGet w.store p).isSome = true → (storeGet w'.store p).isSome = true

theorem heapExt_refl (w : World) : heapExt w w :=
  ⟨le_rfl, fun _ _ => rfl⟩

theorem heapExt_trans {w w1 w2 : World} (h1 : heapExt w w1) (h2 : heapExt w1 w2) :
    heapExt w w2 :=
  ⟨le_trans h1.1 h2.1, fun i hi => (h2.2 i (lt_of_lt_of_le hi h1.1)).trans (h1.2 i hi)⟩

theorem storeKeeps_refl (w : World) : storeKeeps w w := fun _ h => h

theorem storeKeeps_trans {w w1 w2 : World} (h1 : storeKeeps w w1) (h2 : storeKeeps w1 w2) :
    storeKeeps w w2 := fun p h => h2 p (h1 p h)

theorem heapExt_append {w w1 : World} {l : Heap} (h : w1.heap = w.heap ++ l) :
    heapExt w w1 :=
  ⟨by simp [h], fun i hi => by rw [h, List.getD_append _ _ _ _ hi]⟩

theorem heapExt_same {w w1 : World} (h : w1.heap = w.heap) : heapExt w w1 :=
  ⟨by rw [h], fun i _ => by rw [h]⟩

theorem heapExt_of_heap_eq {w w1 w2 : World} (h : heapExt w w1) (he : w2.heap = w1.heap) :
    heapExt w w2 := by
  unfold heapExt at h ⊢
  rw [he]
  exact h

theorem storeKeeps_put {w w1 : World} {cp : String} {b : Blob}
    (h : w1.store = storePut w.store cp b) : storeKeeps w w1 := fun p hp => by
  rw [h]
  exact storeGet_put_isSome w.store cp p b hp

theorem storeKeeps_of_store_eq {w w1 : World} (h : w1.store = w.store) :
    storeKeeps w w1 := fun p hp => by rw [h]; exact hp

/-- Both outcomes of `execNode` only allocate and only add cache files. -/
theorem execNode_preserve (f : Func) (cp line : String) (w : World) (a : Addr) :
    (∀ e w1, execNode f cp line w a = .error (e, w1) →
       heapExt w w1 ∧ storeKeeps w w1 ∧ w1.registered = w.registered)
    ∧ (∀ w1 a1 r1, execNode f cp line w a = .ok (w1, a1, r1) →
       heapExt w w1 ∧ storeKeeps w w1 ∧ w1.registered = w.registered) := by
  constructor
  · intro e w1 h
    rw [execNode_eq] at h
    cases hact : f.action (w.heap.getD a []) with
    | error e2 =>
      rw [hact] at h
      simp only [Except.error.injEq, Prod.mk.injEq] at h
      rw [← h.2]
      exact ⟨heapExt_append rfl, storeKeeps_of_store_eq rfl, rfl⟩
    | ok d =>
      rw [hact] at h
      simp at h
  · intro w1 a1 r1 h
    rw [execNode_eq] at h
    cases hact : f.action (w.heap.getD a []) with
    | error e2 =>
      rw [hact] at h
      simp at h
    | ok d =>
      rw [hact] at h
      simp only [Except.ok.injEq, Prod.mk.injEq] at h
      rw [← h.1]
      exact ⟨heapExt_append rfl, storeKeeps_put rfl, rfl⟩

/-- Both outcomes of `runPhase` only allocate and only add cache files. -/
theorem runPhase_preserve (f : Func) (names : List String) (cacheDir : String)
    (w : World) (a : Addr) (r : Bool) :
    (∀ e w1, runPhase f names cacheDir w a r = .error (e, w1) →
       heapExt w w1 ∧ storeKeeps w w1 ∧ w1.registered = w.registered)
    ∧ (∀ w1 a1 r1, runPhase f names cacheDir w a r = .ok (w1, a1, r1) →
       heapExt w w1 ∧ storeKeeps w w1 ∧ w1.registered = w.registered) := by
  cases r with
  | true =>
    simpa only [runPhase, if_true] using
      execNode_preserve f (cachePath cacheDir names f.source) ("Refreshing: " ++ f.name) w a
  | false =>
    cases hs : storeGet w.store (cachePath cacheDir names f.source) with
    | none =>
      simpa only [runPhase, if_false, hs] using
        execNode_preserve f (cachePath cacheDir names f.source) ("Running: " ++ f.name) w a
    | some b =>
      cases b with
      | valid d =>
        constructor
        · intro e w1 h
          simp [runPhase, hs] at h
        · intro w1 a1 r1 h
          simp only [runPhase, Bool.false_eq_true, if_false, hs, Except.ok.injEq,
            Prod.mk.injEq] at h
          rw [← h.1]
          exact ⟨heapExt_append rfl, storeKeeps_of_store_eq rfl, rfl⟩
      | corrupt =>
        constructor
        · intro e w1 h
          simp only [runPhase, Bool.false_eq_true, if_false, hs, Except.error.injEq,
            Prod.mk.injEq] at h
          rw [← h.2]
          exact ⟨heapExt_same rfl, storeKeeps_of_store_eq rfl, rfl⟩
        · intro w1 a1 r1 h
          simp [runPhase, hs] at h

/-- Unfolding equation for `run` on a node. -/
theorem run_eq (f : Func) (cs : List ATree) (anc : List String) (cacheDir : String)
    (w : World) (a : Addr) (refresh : Bool) :
    run (.mk f cs) anc cacheDir w a refresh =
      match runPhase f (anc ++ [f.name]) cacheDir w a refresh with
      | .error p => .error p
      | .ok (w1, a1, r1) =>
        match runChildren cs (anc ++ [f.name]) cacheDir w1 a1 r1 with
        | .error p => .error p
        | .ok w2 =>
          .ok (if anc.isEmpty then
                cleanupCacheFiles cacheDir
                  { w2 with registered :=
                      w2.registered ++ [cachePath cacheDir (anc ++ [f.name]) f.source] }
              else
                { w2 with registered :=
                    w2.registered ++ [cachePath cacheDir (anc ++ [f.name]) f.source] }) := by
  rw [run]

/-- Unfolding equation for `runChildren` on a cons cell. -/
theorem runChildren_cons (t : ATree) (ts : List ATree) (names : List String)
    (cacheDir : String) (w : World) (a : Addr) (refresh : Bool) :
    runChildren (t :: ts) names cacheDir w a refresh =
      match run t names cacheDir w a refresh with
      | .error p => .error p
      | .ok w1 => runChildren ts names cacheDir w1 a refresh := by
  rw [runChildren]

mutual

/-- Frame property of a whole run: the heap only grows and existing
dictionaries keep their values in every outcome; and no cache file is
ever deleted except by the root-level cleanup on success — an aborted
run (`.error`) deletes nothing, and a non-root run (`anc ≠ []`) deletes
nothing even on success. -/
theorem run_preserve : (t : ATree) → ∀ (anc : List String) (cacheDir : String)
    (w : World) (a : Addr) (r : Bool),
    (∀ e w', run t anc cacheDir w a r = .error (e, w') →
       heapExt w w' ∧ storeKeeps w w')
    ∧ (∀ w', run t anc cacheDir w a r = .ok w' →
       heapExt w w' ∧ (anc ≠ [] → storeKeeps w w'))
  | .mk f cs => by
    intro anc cacheDir w a r
    have hP := runPhase_preserve f (anc ++ [f.name]) cacheDir w a r
    constructor
    · intro e w' h
      rw [run_eq] at h
      cases hp : runPhase f (anc ++ [f.name]) cacheDir w a r with
      | error p =>
        obtain ⟨pe, pw⟩ := p
        simp only [hp, Except.error.injEq, Prod.mk.injEq] at h
        rw [← h.2]
        have h1 := hP.1 pe pw hp
        exact ⟨h1.1, h1.2.1⟩
      | ok res =>
        obtain ⟨w1, a1, r1⟩ := res
        simp only [hp] at h
        have h1 := hP.2 w1 a1 r1 hp
        have hC := runChildren_preserve cs (anc ++ [f.name]) cacheDir w1 a1 r1
        cases hc : runChildren cs (anc ++ [f.name]) cacheDir w1 a1 r1 with
        | error q =>
          obtain ⟨qe, qw⟩ := q
          simp only [hc, Except.error.injEq, Prod.mk.injEq] at h
          rw [← h.2]
          have h2 := hC.1 qe qw hc
          exact ⟨heapExt_trans h1.1 h2.1,
                 storeKeeps_trans h1.2.1 (h2.2 (by simp))⟩
        | ok w2 =>
          simp [hc] at h
    · intro w' h
      rw [run_eq] at h
      cases hp : runPhase f (anc ++ [f.name]) cacheDir w a r with
      | error p =>
        simp [hp] at h
      | ok res =>
        obtain ⟨w1, a1, r1⟩ := res
        simp only [hp] at h
        have h1 := hP.2 w1 a1 r1 hp
        have hC := runChildren_preserve cs (anc ++ [f.name]) cacheDir w1 a1 r1
        cases hc : runChildren cs (anc ++ [f.name]) cacheDir w1 a1 r1 with
        | error q =>
          simp [hc] at h
        | ok w2 =>
          simp only [hc, Except.ok.injEq] at h
          have h2 := hC.2 w2 hc
          have hk : heapExt w w2 := heapExt_trans h1.1 h2.1
          rw [← h]
          cases anc with
          | nil =>
            constructor
            · exact heapExt_of_heap_eq hk (by simp [cleanupCacheFiles])
            · intro hne; exact absurd rfl hne
          | cons a0 as =>
            constructor
            · exact heapExt_of_heap_eq hk (by simp)
            · intro _
              have hs2 : storeKeeps w w2 :=
                storeKeeps_trans h1.2.1 (h2.2 (by simp))
              simp only [List.isEmpty_cons, Bool.false_eq_true, if_false]
              exact fun p hp2 => hs2 p hp2

/-- Frame property of the child loop (the `names` of the parent are
never empty when it is invoked from `run`). -/
theorem runChildren_preserve : (ts : List ATree) → ∀ (names : List String)
    (cacheDir : String) (w : World) (a : Addr) (r : Bool),
    (∀ e w', runChildren ts names cacheDir w a r = .error (e, w') →
       heapExt w w' ∧ (names ≠ [] → storeKeeps w w'))
    ∧ (∀ w', runChildren ts names cacheDir w a r = .ok w' →
       heapExt w w' ∧ (names ≠ [] → storeKeeps w w'))
  | [] => by
    intro names cacheDir w a r
    constructor
    · intro e w' h
      simp [runChildren] at h
    · intro w' h
      simp only [runChildren, Except.ok.injEq] at h
      rw [← h]
      exact ⟨heapExt_refl w, fun _ => storeKeeps_refl w⟩
  | t :: ts => by
    intro names cacheDir w a r
    have hT := run_preserve t names cacheDir w a r
    constructor
    · intro e w' h
      rw [runChildren_cons] at h
      cases hr : run t names cacheDir w a r with
      | error p =>
        obtain ⟨pe, pw⟩ := p
        simp only [hr, Except.error.injEq, Prod.mk.injEq] at h
        rw [← h.2]
        have h1 := hT.1 pe pw hr
        exact ⟨h1.1, fun _ => h1.2⟩
      | ok w1 =>
        simp only [hr] at h
        have h1 := hT.2 w1 hr
        have h2 := (runChildren_preserve ts names cacheDir w1 a r).1 e w' h
        exact ⟨heapExt_trans h1.1 h2.1,
               fun hne => storeKeeps_trans (h1.2 hne) (h2.2 hne)⟩
    · intro w' h
      rw [runChildren_cons] at h
      cases hr : run t names cacheDir w a r with
      | error p =>
        simp [hr] at h
      | ok w1 =>
        simp only [hr] at h
        have h1 := hT.2 w1 hr
        have h2 := (runChildren_preserve ts names cacheDir w1 a r).2 w' h
        exact ⟨heapExt_trans h1.1 h2.1,
               fun hne => storeKeeps_trans (h1.2 hne) (h2.2 hne)⟩

end

/-! ### Forced refresh executes the whole subtree -/

/-- With `refresh = true` the phase always takes the EXECUTED path:
on success it prints the refresh line, hands back the freshly copied
dictionary, and passes `refresh = true` on. -/
theorem runPhase_refresh_ok (f : Func) (names : List String) (cacheDir : String)
    (w : World) (a : Addr) (w1 : World) (a1 : Addr) (r1 : Bool)
    (h : runPhase f names cacheDir w a true = .ok (w1, a1, r1)) :
    w1.log = w.log ++ ["Refreshing: " ++ f.name] ∧ r1 = true := by
  simp only [runPhase, if_true] at h
  rw [execNode_eq] at h
  cases hact : f.action (w.heap.getD a []) with
  | error e =>
    rw [hact] at h
    simp at h
  | ok d =>
    rw [hact] at h
    simp only [Except.ok.injEq, Prod.mk.injEq] at h
    refine ⟨?_, h.2.2.symm⟩
    rw [← h.1]

mutual

/-- A subtree run with `refresh = true` prints exactly the refresh line
of every node, in preorder: every node re-executes, none loads. -/
theorem run_refresh_log : (t : ATree) → ∀ (anc : List String) (cacheDir : String)
    (w : World) (a : Addr) (w' : World),
    run t anc cacheDir w a true = .ok w' → w'.log = w.log ++ refreshLines t
  | .mk f cs => by
    intro anc cacheDir w a w' h
    rw [run_eq] at h
    cases hp : runPhase f (anc ++ [f.name]) cacheDir w a true with
    | error p =>
      simp [hp] at h
    | ok res =>
      obtain ⟨w1, a1, r1⟩ := res
      simp only [hp] at h
      have hph := runPhase_refresh_ok f (anc ++ [f.name]) cacheDir w a w1 a1 r1 hp
      cases hc : runChildren cs (anc ++ [f.name]) cacheDir w1 a1 r1 with
      | error q =>
        simp [hc] at h
      | ok w2 =>
        simp only [hc, Except.ok.injEq] at h
        have h2 : w2.log = w1.log ++ refreshLinesList cs := by
          rw [hph.2] at hc
          exact runChildren_refresh_log cs (anc ++ [f.name]) cacheDir w1 a1 w2 hc
        have hw' : w'.log = w2.log := by
          rw [← h]
          cases anc with
          | nil => simp [cleanupCacheFiles]
          | cons a0 as => simp
        rw [hw', h2, hph.1, refreshLines]
        simp

/-- `run_refresh_log` over a list of sibling subtrees. -/
theorem runChildren_refresh_log : (ts : List ATree) → ∀ (names : List String)
    (cacheDir : String) (w : World) (a : Addr) (w' : World),
    runChildren ts names cacheDir w a true = .ok w' →
      w'.log = w.log ++ refreshLinesList ts
  | [] => by
    intro names cacheDir w a w' h
    simp only [runChildren, Except.ok.injEq] at h
    rw [← h, refreshLinesList]
    simp
  | t :: ts => by
    intro names cacheDir w a w' h
    rw [runChildren_cons] at h
    cases hr : run t names cacheDir w a true with
    | error p =>
      simp [hr] at h
    | ok w1 =>
      simp only [hr] at h
      have h1 := run_refresh_log t names cacheDir w a w1 hr
      have h2 := runChildren_refresh_log ts names cacheDir w1 a w' h
      rw [h2, h1, refreshLinesList]
      simp

end

/-! ### Injectivity of the fingerprint input

`_fingerprint` hashes `'\n'.join(names) ++ source`.  The join is
invertible on nonempty lists of newline-free strings (Python identifiers
never contain a newline), so the hash input determines the name chain
and the source: splitting on the newline character recovers the chain. -/

/-- The newline character used as the join separator. -/
def newlineChar : Char := '\n'

/-- Split a character list at newline characters. -/
def splitNl : List Char → List (List Char)
  | [] => [[]]
  | c :: cs =>
      if c = newlineChar then [] :: splitNl cs
      else
        match splitNl cs with
        | [] => [[c]]
        | g :: gs => (c :: g) :: gs

/-- `joinNames` at the character level. -/
def joinNlChars : List (List Char) → List Char
  | [] => []
  | [g] => g
  | g :: gs => g ++ newlineChar :: joinNlChars gs

theorem splitNl_no_newline (g : List Char) (hg : newlineChar ∉ g) :
    splitNl g = [g] := by
  induction g with
  | nil => rfl
  | cons c g ih =>
    have hc : ¬(c = newlineChar) := fun hh => hg (hh ▸ List.mem_cons_self c g)
    have hg2 : newlineChar ∉ g := fun hh => hg (List.mem_cons_of_mem c hh)
    rw [splitNl, if_neg hc, ih hg2]

theorem splitNl_append (g rest : List Char) (hg : newlineChar ∉ g) :
    splitNl (g ++ newlineChar :: rest) = g :: splitNl rest := by
  induction g with
  | nil => simp [splitNl]
  | cons c g ih =>
    have hc : ¬(c = newlineChar) := fun hh => hg (hh ▸ List.mem_cons_self c g)
    have hg2 : newlineChar ∉ g := fun hh => hg (List.mem_cons_of_mem c hh)
    rw [List.cons_append, splitNl, if_neg hc, ih hg2]

theorem splitNl_joinNlChars (ns : List (List Char)) (hne : ns ≠ [])
    (hnl : ∀ g ∈ ns, newlineChar ∉ g) :
    splitNl (joinNlChars ns) = ns := by
  induction ns with
  | nil => exact absurd rfl hne
  | cons g gs ih =>
    cases gs with
    | nil =>
      rw [joinNlChars]
      exact splitNl_no_newline g (hnl g (List.mem_cons_self g []))
    | cons g2 gs2 =>
      rw [joinNlChars, splitNl_append g _ (hnl g (List.mem_cons_self g _)),
        ih (List.cons_ne_nil g2 gs2) (fun x hx => hnl x (List.mem_cons_of_mem g hx))]
      all_goals exact fun hh => List.noConfusion hh

theorem joinNames_data (ns : List String) :
    (joinNames ns).data = joinNlChars (ns.map String.data) := by
  induction ns with
  | nil => rfl
  | cons n ns ih =>
    cases ns with
    | nil => rfl
    | cons n2 ns2 =>
      rw [joinNames, List.map, joinNlChars, String.data_append, String.data_append, ih,
        List.append_assoc]
      all_goals first
      | rfl
      | exact fun hh => List.noConfusion hh

/-- `'\n'.join` is injective on nonempty lists of newline-free names. -/
theorem joinNames_inj (n1 n2 : List String) (h1 : n1 ≠ []) (h2 : n2 ≠ [])
    (hnl1 : ∀ x ∈ n1, newlineChar ∉ x.data) (hnl2 : ∀ x ∈ n2, newlineChar ∉ x.data)
    (h : joinNames n1 = joinNames n2) : n1 = n2 := by
  have hd : joinNlChars (n1.map String.data) = joinNlChars (n2.map String.data) := by
    rw [← joinNames_data, ← joinNames_data, h]
  have hs1 : splitNl (joinNlChars (n1.map String.data)) = n1.map String.data :=
    splitNl_joinNlChars _ (by simpa using h1)
      (fun g hg => by
        obtain ⟨x, hx, hxd⟩ := List.mem_map.1 hg
        exact hxd ▸ hnl1 x hx)
  have hs2 : splitNl (joinNlChars (n2.map String.data)) = n2.map String.data :=
    splitNl_joinNlChars _ (by simpa using h2)
      (fun g hg => by
        obtain ⟨x, hx, hxd⟩ := List.mem_map.1 hg
        exact hxd ▸ hnl2 x hx)
  have hmap : n1.map String.data = n2.map String.data := by
    rw [← hs1, ← hs2, hd]
  have hinj : Function.Injective String.data := fun a b hab => by
    cases a; cases b
    exact congrArg String.mk hab
  exact List.map_injective_iff.2 hinj hmap

/-! ### Concrete fixtures for closed counterexamples and witnesses -/

/-- A step function that prepends the key `"x"`. -/
def exSetX : Dict → Except String Dict := fun d => .ok (("x", 1) :: d)

/-- A single concrete analysis named `r`. -/
def exR : Func := ⟨"r", "def r(data): data[0] = 1", exSetX, false⟩

/-- The one-node tree for `exR`. -/
def exTree : ATree := .mk exR []

/-- A fresh world: one empty dictionary on the heap, empty cache. -/
def exW0 : World := ⟨[[]], [], [], []⟩

/-- The cache path of `exR` under cache directory `d`. -/
def exPath : String := cachePath "d" ["r"] exR.source

/-! ### Claim theorems -/

/-- C10: the `memoize` wrapper is extensionally the identity
transformation: a call from the initial `memo = None` cell returns
`func(self)` and leaves the cell `None`, and any number of repeated
calls each invoke the wrapped method again — the memo is never
assigned, so no cached value is ever returned. -/
theorem claim_C10_memoize_is_identity :
    (∀ (V : Type) (func : Unit → V), memoizeWrapper (none : Option V) func = (func (), none))
    ∧ (∀ (V : Type) (func : Unit → V) (n : Nat),
        callRepeatedly func n = (none, List.replicate n (func ()))) := by
  constructor
  · intro V func
    rfl
  · intro V func n
    induction n with
    | zero => rfl
    | succ n ih => simp [callRepeatedly, ih, memoizeWrapper, List.replicate_succ']

/-- C4 counterexample: `_save_cache` is not atomic.  With the cache
directory present, a previously valid one-byte blob, and a one-byte
payload, the trace prefix that stops right after the `BZ2File(path, 'w')`
open leaves the file truncated to empty — neither the old nor the new
content, refuting the write-to-temporary-then-rename claim at this
concrete input. -/
theorem claim_C4_counterexample :
    ¬ (∀ k, k ≤ (saveCacheEvents "d" "d/f.cache" true [2]).length →
        contentAfter ((saveCacheEvents "d" "d/f.cache" true [2]).take k)
            "d/f.cache" (some [1]) = some [1] ∨
        contentAfter ((saveCacheEvents "d" "d/f.cache" true [2]).take k)
            "d/f.cache" (some [1]) = some [2]) := by
  intro h
  have h1 := h 1 (by decide)
  simp [saveCacheEvents, contentAfter, applyEvent] at h1

/-- C4 amended: `_save_cache` creates the missing cache directory
(`os.makedirs`) and a completed trace leaves exactly the new payload,
but the write is not atomic: it opens the final path directly with
truncation, so there is an interruption point at which the file holds
neither the previously valid content nor the new payload. -/
theorem claim_C4_amended_thm (cacheDir cp : String) (dirExists : Bool)
    (payload : List Nat) (old : Option (List Nat))
    (hold : old ≠ some []) (hpay : payload ≠ []) :
    (dirExists = false →
      (saveCacheEvents cacheDir cp dirExists payload).head? = some (.mkdirs cacheDir)) ∧
    contentAfter (saveCacheEvents cacheDir cp dirExists payload) cp old = some payload ∧
    (∃ k, k < (saveCacheEvents cacheDir cp dirExists payload).length ∧
      contentAfter ((saveCacheEvents cacheDir cp dirExists payload).take k) cp old ≠ old ∧
      contentAfter ((saveCacheEvents cacheDir cp dirExists payload).take k) cp old ≠
        some payload) := by
  have hcut : contentAfter ((saveCacheEvents cacheDir cp dirExists payload).take
      (if dirExists then 1 else 2)) cp old = some [] := by
    cases dirExists <;> simp [saveCacheEvents, contentAfter, applyEvent]
  refine ⟨?_, ?_, if dirExists then 1 else 2, ?_, ?_, ?_⟩
  · intro hde
    rw [hde]
    rfl
  · cases dirExists <;> simp [saveCacheEvents, contentAfter, applyEvent]
  · cases dirExists <;> simp [saveCacheEvents]
  · rw [hcut]
    exact fun hh => hold hh.symm
  · rw [hcut]
    exact fun hh => hpay (Option.some.inj hh).symm

/-- C4 witness for the amended theorem at a concrete input. -/
theorem claim_C4_amended_witness :
    ((false = false →
      (saveCacheEvents "d" "d/f.cache" false [2]).head? = some (.mkdirs "d")) ∧
    contentAfter (saveCacheEvents "d" "d/f.cache" false [2]) "d/f.cache" (some [1]) =
      some [2] ∧
    (∃ k, k < (saveCacheEvents "d" "d/f.cache" false [2]).length ∧
      contentAfter ((saveCacheEvents "d" "d/f.cache" false [2]).take k) "d/f.cache"
        (some [1]) ≠ some [1] ∧
      contentAfter ((saveCacheEvents "d" "d/f.cache" false [2]).take k) "d/f.cache"
        (some [1]) ≠ some [2])) :=
  claim_C4_amended_thm "d" "d/f.cache" false [2] (some [1]) (by decide) (by decide)

set_option maxRecDepth 40000 in
/-- C2: the root's `_registered_cache_paths` list is not reset at the
start of a run — line 172 resets the never-read `_registered_fingerprints`
attribute instead — so running the same one-node tree twice leaves the
path registered by the first run in the list, now duplicated, when the
second run completes. -/
theorem claim_C2_registered_not_reset :
    ((run exTree [] "d" exW0 0 false).toOption.map World.registered = some [exPath]) ∧
    (((run exTree [] "d" exW0 0 false).toOption.bind
        (fun w1 => (run exTree [] "d" w1 0 false).toOption)).map World.registered =
      some [exPath, exPath]) := by
  decide

set_option maxRecDepth 40000 in
/-- C3 counterexample: with an unreadable blob at the node's cache path,
`run` raises the load failure instead of re-executing: the result is an
error whose world still holds the corrupt blob and whose log shows the
attempted load and no `Running`/`Refreshing` line. -/
theorem claim_C3_counterexample :
    run exTree [] "d" ⟨[[]], [(exPath, .corrupt)], [], []⟩ 0 false =
      .error ("CacheCorrupt", ⟨[[]], [(exPath, .corrupt)], [], ["Loaded from cache: r"]⟩) := by
  decide

/-- C3 amended: a cache file that exists but cannot be
decompressed/deserialized makes `run` propagate the load error to the
caller: the step function is not invoked, nothing is written, and the
world is unchanged but for the `Loaded from cache` line printed before
the failing read. -/
theorem claim_C3_amended_thm (f : Func) (cs : List ATree) (anc : List String)
    (cacheDir : String) (w : World) (a : Addr)
    (hs : storeGet w.store (cachePath cacheDir (anc ++ [f.name]) f.source) = some .corrupt) :
    run (.mk f cs) anc cacheDir w a false =
      .error ("CacheCorrupt", { w with log := w.log ++ ["Loaded from cache: " ++ f.name] }) := by
  rw [run_eq]
  simp [runPhase, hs]

set_option maxRecDepth 40000 in
/-- C3 witness for the amended theorem at a concrete corrupt store. -/
theorem claim_C3_amended_witness :
    run (.mk exR [.mk exR []]) [] "d" ⟨[[("y", 2)]], [(exPath, .corrupt)], ["q"], ["old"]⟩ 0 false =
      .error ("CacheCorrupt",
        { (⟨[[("y", 2)]], [(exPath, .corrupt)], ["q"], ["old"]⟩ : World) with
            log := ["old"] ++ ["Loaded from cache: " ++ exR.name] }) :=
  claim_C3_amended_thm exR [.mk exR []] [] "d"
    ⟨[[("y", 2)]], [(exPath, .corrupt)], ["q"], ["old"]⟩ 0 (by decide)

/-- The first run's cache write survives that run's root cleanup (the
path is registered before cleanup), so a following run finds it. -/
theorem contains_append_self (l : List String) (x : String) :
    (l ++ [x]).contains x = true := by
  induction l with
  | nil => simp
  | cons y l ih => simp [ih]

/-- C8: a step failure during the EXECUTED path aborts the run: at the
failing node the raised message comes back unchanged and the error world
has the original store, registered list and no descendant log lines (no
blob written, no descendants run); a failing child aborts the parent loop
with the same payload, a node whose children fail propagates that payload
past its registration and cleanup; and an aborted run never deletes a
cache file (garbage collection does not happen). -/
theorem claim_C8_step_failure_aborts :
    (∀ (f : Func) (cs : List ATree) (anc : List String) (cacheDir : String)
        (w : World) (a : Addr) (e : String),
        f.action (w.heap.getD a []) = .error e →
        run (.mk f cs) anc cacheDir w a true =
          .error (e, { w with
                        heap := w.heap ++ [w.heap.getD a []],
                        log := w.log ++ ["Refreshing: " ++ f.name] })) ∧
    (∀ (f : Func) (cs : List ATree) (anc : List String) (cacheDir : String)
        (w : World) (a : Addr) (e : String),
        storeGet w.store (cachePath cacheDir (anc ++ [f.name]) f.source) = none →
        f.action (w.heap.getD a []) = .error e →
        run (.mk f cs) anc cacheDir w a false =
          .error (e, { w with
                        heap := w.heap ++ [w.heap.getD a []],
                        log := w.log ++ ["Running: " ++ f.name] })) ∧
    (∀ (t : ATree) (ts : List ATree) (names : List String) (cacheDir : String)
        (w : World) (a : Addr) (r : Bool) (p : String × World),
        run t names cacheDir w a r = .error p →
        runChildren (t :: ts) names cacheDir w a r = .error p) ∧
    (∀ (f : Func) (cs : List ATree) (anc : List String) (cacheDir : String)
        (w : World) (a : Addr) (r : Bool) (w1 : World) (a1 : Addr) (r1 : Bool)
        (p : String × World),
        runPhase f (anc ++ [f.name]) cacheDir w a r = .ok (w1, a1, r1) →
        runChildren cs (anc ++ [f.name]) cacheDir w1 a1 r1 = .error p →
        run (.mk f cs) anc cacheDir w a r = .error p) ∧
    (∀ (t : ATree) (anc : List String) (cacheDir : String) (w : World) (a : Addr)
        (r : Bool) (e : String) (w' : World),
        run t anc cacheDir w a r = .error (e, w') → storeKeeps w w') := by
  refine ⟨?_, ?_, ?_, ?_, ?_⟩
  · intro f cs anc cacheDir w a e hact
    have h1 : runPhase f (anc ++ [f.name]) cacheDir w a true =
        execNode f (cachePath cacheDir (anc ++ [f.name]) f.source)
          ("Refreshing: " ++ f.name) w a := by
      simp [runPhase]
    have hp : runPhase f (anc ++ [f.name]) cacheDir w a true =
        .error (e, { w with
                      heap := w.heap ++ [w.heap.getD a []],
                      log := w.log ++ ["Refreshing: " ++ f.name] }) := by
      rw [h1, execNode_eq, hact]
    simp only [run_eq, hp]
  · intro f cs anc cacheDir w a e hs hact
    have h1 : runPhase f (anc ++ [f.name]) cacheDir w a false =
        execNode f (cachePath cacheDir (anc ++ [f.name]) f.source)
          ("Running: " ++ f.name) w a := by
      simp [runPhase, hs]
    have hp : runPhase f (anc ++ [f.name]) cacheDir w a false =
        .error (e, { w with
                      heap := w.heap ++ [w.heap.getD a []],
                      log := w.log ++ ["Running: " ++ f.name] }) := by
      rw [h1, execNode_eq, hact]
    simp only [run_eq, hp]
  · intro t ts names cacheDir w a r p hr
    simp only [runChildren_cons, hr]
  · intro f cs anc cacheDir w a r w1 a1 r1 p hp hc
    simp only [run_eq, hp, hc]
  · intro t anc cacheDir w a r e w' hr
    exact ((run_preserve t anc cacheDir w a r).1 e w' hr).2

/-- C8 witness: a concrete failing step at the root of a two-node tree. -/
theorem claim_C8_witness :
    run (.mk ⟨"b", "def b(data): raise Boom", fun _ => .error "Boom", false⟩ [exTree])
        [] "d" exW0 0 true =
      .error ("Boom", { exW0 with
                        heap := exW0.heap ++ [exW0.heap.getD 0 []],
                        log := exW0.log ++ ["Refreshing: b"] }) :=
  claim_C8_step_failure_aborts.1 ⟨"b", "def b(data): raise Boom", fun _ => .error "Boom", false⟩
    [exTree] [] "d" exW0 0 "Boom" rfl

/-- C6: with `refresh` false and a readable blob at the node's cache
path, the phase loads exactly the stored dictionary into a fresh object,
prints only the `Loaded from cache` line (the step function is not
invoked), and hands the children that object with `refresh` still false;
moreover what `_save_cache` persisted is exactly what `_load_cache`
yields, both at the store level and across a completed root run. -/
theorem claim_C6_cache_hit_loads (f : Func) (cs : List ATree) (anc : List String)
    (cacheDir : String) (w : World) (a : Addr) (d : Dict)
    (hs : storeGet w.store (cachePath cacheDir (anc ++ [f.name]) f.source) =
      some (.valid d)) :
    runPhase f (anc ++ [f.name]) cacheDir w a false =
      .ok ({ w with
              heap := w.heap ++ [d],
              log := w.log ++ ["Loaded from cache: " ++ f.name] },
           w.heap.length, false) ∧
    (w.heap ++ [d]).getD w.heap.length [] = d ∧
    (∀ (s : Store) (p : String) (d2 : Dict),
        storeGet (storePut s p (.valid d2)) p = some (.valid d2)) ∧
    (∀ (w2 : World),
        runChildren cs (anc ++ [f.name]) cacheDir
          { w with
            heap := w.heap ++ [d],
            log := w.log ++ ["Loaded from cache: " ++ f.name] }
          w.heap.length false = .ok w2 →
        run (.mk f cs) anc cacheDir w a false =
          .ok (if anc.isEmpty then
                cleanupCacheFiles cacheDir
                  { w2 with registered :=
                      w2.registered ++ [cachePath cacheDir (anc ++ [f.name]) f.source] }
              else
                { w2 with registered :=
                    w2.registered ++ [cachePath cacheDir (anc ++ [f.name]) f.source] })) ∧
    (∀ (f2 : Func) (cacheDir2 : String) (w2 : World) (a2 : Addr) (d2 : Dict) (w2f : World),
        storeGet w2.store (cachePath cacheDir2 [f2.name] f2.source) = none →
        f2.action (w2.heap.getD a2 []) = .ok d2 →
        run (.mk f2 []) [] cacheDir2 w2 a2 false = .ok w2f →
        storeGet w2f.store (cachePath cacheDir2 [f2.name] f2.source) =
          some (.valid d2)) := by
  have hload : runPhase f (anc ++ [f.name]) cacheDir w a false =
      .ok ({ w with
              heap := w.heap ++ [d],
              log := w.log ++ ["Loaded from cache: " ++ f.name] },
           w.heap.length, false) := by
    simp [runPhase, hs]
  refine ⟨hload, getD_append_self w.heap d [], ?_, ?_, ?_⟩
  · intro s p d2
    exact storeGet_put_self s p (.valid d2)
  · intro w2 hc
    simp only [run_eq, hload, hc]
  · intro f2 cacheDir2 w2 a2 d2 w2f hnone hact hrun
    have h1 : runPhase f2 ([] ++ [f2.name]) cacheDir2 w2 a2 false =
        execNode f2 (cachePath cacheDir2 ([] ++ [f2.name]) f2.source)
          ("Running: " ++ f2.name) w2 a2 := by
      simp only [List.nil_append]
      simp [runPhase, hnone]
    have hp : runPhase f2 ([] ++ [f2.name]) cacheDir2 w2 a2 false =
        .ok ({ w2 with
                heap := w2.heap ++ [d2],
                store := storePut w2.store
                  (cachePath cacheDir2 ([] ++ [f2.name]) f2.source) (.valid d2),
                log := w2.log ++ ["Running: " ++ f2.name] },
             w2.heap.length, true) := by
      rw [h1, execNode_eq, hact]
    simp only [run_eq, hp, runChildren, List.isEmpty_nil, if_true, Except.ok.injEq] at hrun
    rw [← hrun]
    simp only [List.nil_append, cleanupCacheFiles, storeGet, storePut]
    rw [List.filter_cons]
    have hcont : ((w2.registered ++
        [cachePath cacheDir2 [f2.name] f2.source]).contains
          (cachePath cacheDir2 [f2.name] f2.source)) = true :=
      contains_append_self w2.registered (cachePath cacheDir2 [f2.name] f2.source)
    simp [hcont, List.find?]

/-- `find?` by key over a key-based `filter`: the entry survives exactly
when its key is kept. -/
theorem find_filter_key (s : Store) (keep : String → Bool) (p : String) :
    (s.filter (fun e => keep e.1)).find? (fun e => e.1 == p) =
      if keep p then s.find? (fun e => e.1 == p) else none := by
  induction s with
  | nil => simp
  | cons e s ih =>
    by_cases hp : e.1 = p
    · subst hp
      by_cases hk : keep e.1
      · simp [List.filter_cons, hk, List.find?]
      · have hkf : keep e.1 = false := by simp [hk]
        simp [List.filter_cons, hkf, List.find?, ih]
    · have hbe : (e.1 == p) = false := by
        simp only [beq_eq_false_iff_ne, ne_eq]
        exact hp
      by_cases hk : keep e.1
      · simp [List.filter_cons, hk, List.find?, hbe, ih]
      · have hkf : keep e.1 = false := by simp [hk]
        simp [List.filter_cons, hkf, List.find?, hbe, ih]

/-- C9: garbage collection.  (1) `_cleanup_cache_files` deletes exactly
the files that match the glob `cache_dir/*.cache` and are not in the
registered list, and leaves every other file untouched with its content;
(2) a non-root run deletes nothing even when it succeeds (only the root
collects); (3) a root run whose phase and children complete is exactly
one cleanup pass applied after the whole tree has finished, over the
registrations accumulated by that run (starting from the empty list a
fresh root object has). -/
theorem claim_C9_garbage_collection :
    (∀ (cacheDir : String) (w : World) (p : String),
        storeGet (cleanupCacheFiles cacheDir w).store p =
          if isCacheFile cacheDir p && !w.registered.contains p then none
          else storeGet w.store p) ∧
    (∀ (t : ATree) (anc : List String) (cacheDir : String) (w : World) (a : Addr)
        (r : Bool) (w' : World),
        anc ≠ [] → run t anc cacheDir w a r = .ok w' →
        ∀ p, (storeGet w.store p).isSome = true → (storeGet w'.store p).isSome = true) ∧
    (∀ (f : Func) (cs : List ATree) (cacheDir : String) (w : World) (a : Addr)
        (r : Bool) (w1 : World) (a1 : Addr) (r1 : Bool) (w2 : World),
        w.registered = [] →
        runPhase f [f.name] cacheDir w a r = .ok (w1, a1, r1) →
        runChildren cs [f.name] cacheDir w1 a1 r1 = .ok w2 →
        run (.mk f cs) [] cacheDir w a r =
          .ok (cleanupCacheFiles cacheDir
            { w2 with registered := w2.registered ++ [cachePath cacheDir [f.name] f.source] })) := by
  refine ⟨?_, ?_, ?_⟩
  · intro cacheDir w p
    have h := find_filter_key w.store
      (fun q => !(isCacheFile cacheDir q && !w.registered.contains q)) p
    simp only [cleanupCacheFiles, storeGet]
    simp only [h]
    cases hc : isCacheFile cacheDir p && !w.registered.contains p with
    | true => simp
    | false => simp
  · intro t anc cacheDir w a r w' hne hrun p hp
    exact ((run_preserve t anc cacheDir w a r).2 w' hrun).2 hne p hp
  · intro f cs cacheDir w a r w1 a1 r1 w2 hreg hp hc
    have hp2 : runPhase f ([] ++ [f.name]) cacheDir w a r = .ok (w1, a1, r1) := by
      simpa using hp
    have hc2 : runChildren cs ([] ++ [f.name]) cacheDir w1 a1 r1 = .ok w2 := by
      simpa using hc
    simp only [run_eq, hp2, hc2, List.isEmpty_nil, if_true]
    simp

set_option maxRecDepth 40000 in
/-- C9 witness: a concrete root run over a store holding one stale file,
one current file and one non-matching file; applying the root-cleanup
conjunct at that input. -/
theorem claim_C9_witness :
    run exTree [] "d" ⟨[[]], [("d/stale.cache", .valid []), ("d/notes.txt", .valid [])], [], []⟩
        0 false =
      .ok (cleanupCacheFiles "d"
        { (⟨[[], [("x", 1)]],
            [(exPath, .valid [("x", 1)]),
             ("d/stale.cache", .valid []), ("d/notes.txt", .valid [])],
            [], ["Running: r"]⟩ : World) with
          registered := [] ++ [cachePath "d" ["r"] exR.source] }) :=
  claim_C9_garbage_collection.2.2 exR [] "d"
    ⟨[[]], [("d/stale.cache", .valid []), ("d/notes.txt", .valid [])], [], []⟩
    0 false
    ⟨[[], [("x", 1)]],
     [(exPath, .valid [("x", 1)]),
      ("d/stale.cache", .valid []), ("d/notes.txt", .valid [])],
     [], ["Running: r"]⟩
    1 true
    ⟨[[], [("x", 1)]],
     [(exPath, .valid [("x", 1)]),
      ("d/stale.cache", .valid []), ("d/notes.txt", .valid [])],
     [], ["Running: r"]⟩
    rfl (by decide) (by decide)

/-- C7: sibling subtrees are isolated.  Because every executing node
deep-copies its input before mutating and a loading node reads a fresh
object, a child run never changes any dictionary that was already live;
in particular, after child A completes, the parent dictionary at `a` is
untouched, and child B starts from exactly that address and value — the
parent's output, not A's output. -/
theorem claim_C7_sibling_isolation (tA tB : ATree) (names : List String)
    (cacheDir : String) (w : World) (a : Addr) (r : Bool) (w1 : World)
    (ha : a < w.heap.length) (hA : run tA names cacheDir w a r = .ok w1) :
    w1.heap.getD a [] = w.heap.getD a [] ∧
    runChildren [tA, tB] names cacheDir w a r =
      runChildren [tB] names cacheDir w1 a r ∧
    (∀ i, i < w.heap.length → w1.heap.getD i [] = w.heap.getD i []) := by
  have h1 := (run_preserve tA names cacheDir w a r).2 w1 hA
  refine ⟨h1.1.2 a ha, ?_, h1.1.2⟩
  simp only [runChildren_cons, hA]

/-- A second sibling step function, used by the C7 witness. -/
def exB : Func := ⟨"b", "def b(data): data[1] = 2", fun d => .ok (("y", 2) :: d), false⟩

/-- Parent state for the C7 witness: one dictionary holding `p = 7`. -/
def exW7 : World := ⟨[[("p", 7)]], [], [], []⟩

/-- The world after running child `r` from `exW7` under parent `root`. -/
def exW7A : World :=
  ⟨[[("p", 7)], [("x", 1), ("p", 7)]],
   [(cachePath "d" ["root", "r"] exR.source, .valid [("x", 1), ("p", 7)])],
   [cachePath "d" ["root", "r"] exR.source],
   ["Refreshing: r"]⟩

set_option maxRecDepth 40000 in
set_option maxHeartbeats 2000000 in
/-- C7 witness: child A mutates only its copy; the parent dictionary at
address 0 still holds `p = 7` when child B starts. -/
theorem claim_C7_witness :
    exW7A.heap.getD 0 [] = exW7.heap.getD 0 [] ∧
    runChildren [exTree, .mk exB []] ["root"] "d" exW7 0 true =
      runChildren [.mk exB []] ["root"] "d" exW7A 0 true ∧
    (∀ i, i < exW7.heap.length → exW7A.heap.getD i [] = exW7.heap.getD i []) :=
  claim_C7_sibling_isolation exTree (.mk exB []) ["root"] "d" exW7 0 true exW7A
    (by decide) (by decide)

/-! ### C5: fingerprint determinism and cascading invalidation -/

/-- Root source, first version. -/
def srcR1 : String := "def r(data): data[0] = 1"

/-- Root source, second version: a one-character edit of `srcR1`. -/
def srcR2 : String := "def r(data): data[0] = 2"

/-- Child source, unchanged across the edit. -/
def srcC : String := "def c(data): data[1] = 3"

/-- Root-and-child tree before the edit. -/
def exTreeR1 : ATree := .mk ⟨"r", srcR1, exSetX, false⟩ [.mk ⟨"c", srcC, exSetX, false⟩ []]

/-- Root-and-child tree after the one-character edit of the root source. -/
def exTreeR2 : ATree := .mk ⟨"r", srcR2, exSetX, false⟩ [.mk ⟨"c", srcC, exSetX, false⟩ []]

set_option maxRecDepth 40000 in
set_option maxHeartbeats 2000000 in
/-- C5 counterexample: editing one character of the root step's source
changes the root's own fingerprint but leaves the child's fingerprint
bit-for-bit identical — a descendant's fingerprint input contains only
the ancestor names, never ancestor source, so the claim that every
descendant's fingerprint changes is false at this input. -/
theorem claim_C5_counterexample :
    srcR1 ≠ srcR2 ∧
    srcR1.data.length = srcR2.data.length ∧
    ((srcR1.data.zip srcR2.data).countP fun q => q.1 != q.2) = 1 ∧
    fingerprints exTreeR1 [] ≠ fingerprints exTreeR2 [] ∧
    (fingerprints exTreeR1 []).getD 0 "" ≠ (fingerprints exTreeR2 []).getD 0 "" ∧
    (fingerprints exTreeR1 []).tail = (fingerprints exTreeR2 []).tail := by
  have hhead : (fingerprints exTreeR1 []).getD 0 "" ≠
      (fingerprints exTreeR2 []).getD 0 "" := by decide
  exact ⟨by decide, by decide, by decide,
    fun hh => hhead (by rw [hh]), hhead, rfl⟩

/-- C5 amended: the fingerprint is a deterministic function of the
name chain and the source alone; its (pre-hash) input changes whenever
the source changes with names fixed, and whenever the nonempty
newline-free name chain changes with source fixed; editing an ancestor's
source leaves every descendant's fingerprint unchanged, and descendants
nonetheless all re-execute because an executed node passes
`refresh = true` down and a refreshed subtree takes the refresh path at
every node. -/
theorem claim_C5_amended_thm :
    (∀ (names1 names2 : List String) (src1 src2 : String),
        names1 = names2 → src1 = src2 →
        fingerprint names1 src1 = fingerprint names2 src2) ∧
    (∀ (names : List String) (src1 src2 : String), src1 ≠ src2 →
        joinNames names ++ src1 ≠ joinNames names ++ src2) ∧
    (∀ (names1 names2 : List String) (src : String),
        names1 ≠ [] → names2 ≠ [] →
        (∀ x ∈ names1, newlineChar ∉ x.data) →
        (∀ x ∈ names2, newlineChar ∉ x.data) →
        names1 ≠ names2 →
        joinNames names1 ++ src ≠ joinNames names2 ++ src) ∧
    (∀ (name src1 src2 : String) (act1 act2 : Dict → Except String Dict)
        (nc1 nc2 : Bool) (cs : List ATree) (anc : List String),
        (fingerprints (.mk ⟨name, src1, act1, nc1⟩ cs) anc).tail =
          (fingerprints (.mk ⟨name, src2, act2, nc2⟩ cs) anc).tail) ∧
    (∀ (f : Func) (names : List String) (cacheDir : String) (w : World) (a : Addr)
        (w1 : World) (a1 : Addr) (r1 : Bool),
        storeGet w.store (cachePath cacheDir names f.source) = none →
        runPhase f names cacheDir w a false = .ok (w1, a1, r1) → r1 = true) ∧
    (∀ (t : ATree) (anc : List String) (cacheDir : String) (w : World) (a : Addr)
        (w' : World),
        run t anc cacheDir w a true = .ok w' → w'.log = w.log ++ refreshLines t) := by
  refine ⟨?_, ?_, ?_, ?_, ?_, ?_⟩
  · intro names1 names2 src1 src2 hn hs
    rw [hn, hs]
  · intro names s1 s2 hne hc
    apply hne
    have hd := congrArg String.data hc
    rw [String.data_append, String.data_append] at hd
    have hd2 := List.append_cancel_left hd
    cases s1
    cases s2
    exact congrArg String.mk hd2
  · intro names1 names2 src h1 h2 hnl1 hnl2 hne hc
    apply hne
    have hd := congrArg String.data hc
    rw [String.data_append, String.data_append] at hd
    have hd2 := List.append_cancel_right hd
    have hj : joinNames names1 = joinNames names2 := by
      cases hj1 : joinNames names1
      cases hj2 : joinNames names2
      rw [hj1, hj2] at hd2
      exact congrArg String.mk hd2
    exact joinNames_inj names1 names2 h1 h2 hnl1 hnl2 hj
  · intro name src1 src2 act1 act2 nc1 nc2 cs anc
    simp only [fingerprints, List.tail_cons]
  · intro f names cacheDir w a w1 a1 r1 hnone hp
    have h1 : runPhase f names cacheDir w a false =
        execNode f (cachePath cacheDir names f.source) ("Running: " ++ f.name) w a := by
      simp [runPhase, hnone]
    rw [h1, execNode_eq] at hp
    cases hact : f.action (w.heap.getD a []) with
    | error e =>
      rw [hact] at hp
      simp at hp
    | ok d =>
      rw [hact] at hp
      simp only [Except.ok.injEq, Prod.mk.injEq] at hp
      exact hp.2.2.symm
  · exact run_refresh_log

set_option maxRecDepth 40000 in
/-- C5 witness: the amended theorem applied at concrete inputs. -/
theorem claim_C5_amended_witness :
    fingerprint ["r"] srcR1 = fingerprint ["r"] srcR1 ∧
    joinNames ["r"] ++ srcR1 ≠ joinNames ["r"] ++ srcR2 ∧
    joinNames ["r"] ++ srcC ≠ joinNames ["q"] ++ srcC ∧
    (fingerprints exTreeR1 []).tail = (fingerprints exTreeR2 []).tail :=
  ⟨claim_C5_amended_thm.1 ["r"] ["r"] srcR1 srcR1 rfl rfl,
   claim_C5_amended_thm.2.1 ["r"] srcR1 srcR2 (by decide),
   claim_C5_amended_thm.2.2.1 ["r"] ["q"] srcC (by decide) (by decide)
     (by decide) (by decide) (by decide),
   claim_C5_amended_thm.2.2.2.1 "r" srcR1 srcR2 exSetX exSetX false false
     [.mk ⟨"c", srcC, exSetX, false⟩ []] []⟩

/-! ### C1: the spec-modelled never-cache flag -/

/-- Unfolding equation for `runNC` on a node. -/
theorem runNC_eq (f : Func) (cs : List ATree) (anc : List String) (cacheDir : String)
    (w : World) (a : Addr) (refresh : Bool) :
    runNC (.mk f cs) anc cacheDir w a refresh =
      match runPhaseNC f (anc ++ [f.name]) cacheDir w a refresh with
      | .error p => .error p
      | .ok (w1, a1, r1) =>
        match runChildrenNC cs (anc ++ [f.name]) cacheDir w1 a1 r1 with
        | .error p => .error p
        | .ok w2 =>
          .ok (if anc.isEmpty then
                cleanupCacheFiles cacheDir
                  (if f.neverCache then w2
                   else { w2 with registered :=
                      w2.registered ++ [cachePath cacheDir (anc ++ [f.name]) f.source] })
              else
                (if f.neverCache then w2
                 else { w2 with registered :=
                    w2.registered ++ [cachePath cacheDir (anc ++ [f.name]) f.source] })) := by
  rw [runNC]

/-- C1 (spec-modelled): a node whose step function is flagged
never-cache takes the EXECUTED path on every run — whatever the store
holds at its cache path and whatever the refresh flag — invoking the
step function on a fresh copy, propagating its failure if it raises,
passing `refresh = true` to its children, writing nothing to the store,
and registering no cache path. -/
theorem claim_C1_never_cache (f : Func) (names : List String) (cacheDir : String)
    (w : World) (a : Addr) (r : Bool) (hnc : f.neverCache = true) :
    (∀ d, f.action (w.heap.getD a []) = .ok d →
        runPhaseNC f names cacheDir w a r =
          .ok ({ w with
                  heap := w.heap ++ [d],
                  log := w.log ++
                    [(if r then "refreshing: " else "never-cached: ") ++ f.name] },
               w.heap.length, true)) ∧
    (∀ e, f.action (w.heap.getD a []) = .error e →
        runPhaseNC f names cacheDir w a r =
          .error (e, { w with
                        heap := w.heap ++ [w.heap.getD a []],
                        log := w.log ++
                          [(if r then "refreshing: " else "never-cached: ") ++ f.name] })) ∧
    (∀ (cs : List ATree) (anc : List String) (w1 : World) (a1 : Addr) (r1 : Bool)
        (w2 : World),
        runPhaseNC f (anc ++ [f.name]) cacheDir w a r = .ok (w1, a1, r1) →
        runChildrenNC cs (anc ++ [f.name]) cacheDir w1 a1 r1 = .ok w2 →
        runNC (.mk f cs) anc cacheDir w a r =
          .ok (if anc.isEmpty then cleanupCacheFiles cacheDir w2 else w2)) := by
  refine ⟨?_, ?_, ?_⟩
  · intro d hact
    cases r with
    | true =>
      have h1 : runPhaseNC f names cacheDir w a true =
          execNodeNC f ("refreshing: " ++ f.name) w a := by
        simp [runPhaseNC, hnc]
      rw [h1, execNodeNC_eq, hact]
      rfl
    | false =>
      have h1 : runPhaseNC f names cacheDir w a false =
          execNodeNC f ("never-cached: " ++ f.name) w a := by
        simp [runPhaseNC, hnc]
      rw [h1, execNodeNC_eq, hact]
      rfl
  · intro e hact
    cases r with
    | true =>
      have h1 : runPhaseNC f names cacheDir w a true =
          execNodeNC f ("refreshing: " ++ f.name) w a := by
        simp [runPhaseNC, hnc]
      rw [h1, execNodeNC_eq, hact]
      rfl
    | false =>
      have h1 : runPhaseNC f names cacheDir w a false =
          execNodeNC f ("never-cached: " ++ f.name) w a := by
        simp [runPhaseNC, hnc]
      rw [h1, execNodeNC_eq, hact]
      rfl
  · intro cs anc w1 a1 r1 w2 hp hc
    simp only [runNC_eq, hp, hc, hnc, if_true]

/-- A never-cache step function for the C1 witness. -/
def exNC : Func := ⟨"n", "def n(data): data[2] = 9", exSetX, true⟩

/-- A world whose store already holds a valid blob at the never-cache
node's own cache path. -/
def exWNC : World :=
  ⟨[[]], [(cachePath "d" ["n"] exNC.source, .valid [("z", 1)])], [], []⟩

/-- C1 witness: even with a valid blob present at its own cache path,
the never-cache node executes and leaves the store untouched. -/
theorem claim_C1_witness :
    runPhaseNC exNC ["n"] "d" exWNC 0 false =
      .ok ({ exWNC with
              heap := exWNC.heap ++ [[("x", 1)]],
              log := exWNC.log ++
                [(if false then "refreshing: " else "never-cached: ") ++ exNC.name] },
           exWNC.heap.length, true) :=
  (claim_C1_never_cache exNC ["n"] "d" exWNC 0 false rfl).1 [("x", 1)] rfl

/-- A world whose store already holds the valid blob `exR` would write. -/
def exW6 : World := ⟨[[]], [(exPath, .valid [("x", 1)])], [], []⟩

set_option maxRecDepth 40000 in
/-- C6 witness: the cache-hit theorem applied at a concrete store
holding the blob of a previous run of `exR`. -/
theorem claim_C6_witness :
    runPhase exR ([] ++ [exR.name]) "d" exW6 0 false =
      .ok ({ exW6 with
              heap := exW6.heap ++ [[("x", 1)]],
              log := exW6.log ++ ["Loaded from cache: " ++ exR.name] },
           exW6.heap.length, false) ∧
    (exW6.heap ++ [[("x", 1)]]).getD exW6.heap.length [] = [("x", 1)] ∧
    (∀ (s : Store) (p : String) (d2 : Dict),
        storeGet (storePut s p (.valid d2)) p = some (.valid d2)) ∧
    (∀ (w2 : World),
        runChildren [] ([] ++ [exR.name]) "d"
          { exW6 with
              heap := exW6.heap ++ [[("x", 1)]],
              log := exW6.log ++ ["Loaded from cache: " ++ exR.name] }
          exW6.heap.length false = .ok w2 →
        run (.mk exR []) [] "d" exW6 0 false =
          .ok (if ([] : List String).isEmpty then
                cleanupCacheFiles "d"
                  { w2 with registered :=
                      w2.registered ++ [cachePath "d" ([] ++ [exR.name]) exR.source] }
              else
                { w2 with registered :=
                    w2.registered ++ [cachePath "d" ([] ++ [exR.name]) exR.source] })) ∧
    (∀ (f2 : Func) (cacheDir2 : String) (w2 : World) (a2 : Addr) (d2 : Dict) (w2f : World),
        storeGet w2.store (cachePath cacheDir2 [f2.name] f2.source) = none →
        f2.action (w2.heap.getD a2 []) = .ok d2 →
        run (.mk f2 []) [] cacheDir2 w2 a2 false = .ok w2f →
        storeGet w2f.store (cachePath cacheDir2 [f2.name] f2.source) =
          some (.valid d2)) :=
  claim_C6_cache_hit_loads exR [] [] "d" exW6 0 [("x", 1)] (by decide)

end Proof
